import Mathlib

/-!
Verification of the Polymarket Gamma API TypeScript client
(`src/client.ts`, class `PolymarketGammaClient`).

The development shallowly embeds the client's request/response pipeline:

* `Json` — the decoded JSON values the client manipulates;
* `jsonParse` — a model of ECMAScript `JSON.parse` (the platform builtin
  used by `parseJsonFields`), a recursive-descent parser returning
  `Option Json` where `none` models a thrown `SyntaxError`;
* `parseJsonFields` — the client's recursive field normalizer;
* `buildQuery` — the query-parameter loop of `request`;
* `handleResponse` / `handlePostResponse` — the response classification
  of `request` (GET, with normalization) and `post` (no normalization);
* endpoint builders for the id-or-slug accessors.
-/

namespace PolymarketGamma

/-- Decoded JSON values.  Numbers are kept as a decimal mantissa and a
(signed) base-ten exponent, mirroring the exact decimal read by the
parser; no claim below depends on float rounding. -/
inductive Json where
  | null : Json
  | bool (b : Bool) : Json
  | num (mantissa : Int) (exp10 : Int) : Json
  | str (s : String) : Json
  | arr (elems : List Json) : Json
  | obj (fields : List (String × Json)) : Json

/-- Structural induction for `Json` with member-wise hypotheses for the
nested lists. -/
def jsonInd {P : Json → Prop}
    (hnull : P .null) (hbool : ∀ b, P (.bool b)) (hnum : ∀ m e, P (.num m e))
    (hstr : ∀ s, P (.str s))
    (harr : ∀ xs, (∀ x ∈ xs, P x) → P (.arr xs))
    (hobj : ∀ fs, (∀ p ∈ fs, P p.2) → P (.obj fs)) : ∀ j, P j
  | .null => hnull
  | .bool b => hbool b
  | .num m e => hnum m e
  | .str s => hstr s
  | .arr xs => harr xs (fun x _ => jsonInd hnull hbool hnum hstr harr hobj x)
  | .obj fs => hobj fs (fun p _ => jsonInd hnull hbool hnum hstr harr hobj p.2)
termination_by j => sizeOf j
decreasing_by
  · rename_i hx
    have := List.sizeOf_lt_of_mem hx
    simp only [Json.arr.sizeOf_spec]
    omega
  · rename_i hp
    have h1 := List.sizeOf_lt_of_mem hp
    obtain ⟨k, v⟩ := p
    simp only [Json.obj.sizeOf_spec, Prod.mk.sizeOf_spec] at *
    omega

mutual

/-- Boolean equality on `Json`. -/
def jsonBeq : Json → Json → Bool
  | .null, .null => true
  | .bool a, .bool b => a == b
  | .num m e, .num m2 e2 => m == m2 && e == e2
  | .str a, .str b => a == b
  | .arr xs, .arr ys => jsonBeqList xs ys
  | .obj fs, .obj gs => jsonBeqObj fs gs
  | _, _ => false

/-- Boolean equality on lists of `Json`. -/
def jsonBeqList : List Json → List Json → Bool
  | [], [] => true
  | x :: xs, y :: ys => jsonBeq x y && jsonBeqList xs ys
  | _, _ => false

/-- Boolean equality on lists of `Json` object members. -/
def jsonBeqObj : List (String × Json) → List (String × Json) → Bool
  | [], [] => true
  | (k, v) :: fs, (k2, v2) :: gs => k == k2 && jsonBeq v v2 && jsonBeqObj fs gs
  | _, _ => false

end

theorem jsonBeq_iff : ∀ a b : Json, jsonBeq a b = true ↔ a = b := by
  intro a
  induction a using jsonInd with
  | hnull => intro b; cases b <;> simp [jsonBeq]
  | hbool x => intro b; cases b <;> simp [jsonBeq]
  | hnum m e => intro b; cases b <;> simp [jsonBeq]
  | hstr s => intro b; cases b <;> simp [jsonBeq]
  | harr xs ih =>
    intro b
    cases b with
    | arr ys =>
      simp only [jsonBeq, Json.arr.injEq]
      induction xs generalizing ys with
      | nil => cases ys <;> simp [jsonBeqList]
      | cons x xs ihl =>
        cases ys with
        | nil => simp [jsonBeqList]
        | cons y ys =>
          simp only [jsonBeqList, Bool.and_eq_true, List.cons.injEq]
          rw [ih x (by simp), ihl (fun z hz => ih z (by simp [hz]))]
    | null | bool b | num m e | str s | obj fs => simp [jsonBeq]
  | hobj fs ih =>
    intro b
    cases b with
    | obj gs =>
      simp only [jsonBeq, Json.obj.injEq]
      induction fs generalizing gs with
      | nil => cases gs <;> simp [jsonBeqObj]
      | cons f fs ihl =>
        obtain ⟨k, v⟩ := f
        cases gs with
        | nil => simp [jsonBeqObj]
        | cons g gs =>
          obtain ⟨k2, v2⟩ := g
          simp only [jsonBeqObj, Bool.and_eq_true, List.cons.injEq, Prod.mk.injEq,
            beq_iff_eq]
          rw [ih (k, v) (by simp), ihl (fun z hz => ih z (by simp [hz]))]
    | null | bool b | num m e | str s | arr xs => simp [jsonBeq]

instance : DecidableEq Json := fun a b =>
  decidable_of_iff (jsonBeq a b = true) (jsonBeq_iff a b)

/-- JSON whitespace (the four characters the JSON grammar allows). -/
def isJsonWs (c : Char) : Bool :=
  c = ' ' || c = '\t' || c = '\n' || c = '\r'

/-- Drop leading JSON whitespace. -/
def skipWs : List Char → List Char
  | [] => []
  | c :: cs => if isJsonWs c then skipWs cs else c :: cs

/-- Value of a hexadecimal digit, for `\uXXXX` escapes. -/
def hexVal (c : Char) : Option Nat :=
  if '0' ≤ c ∧ c ≤ '9' then some (c.toNat - 48)
  else if 'a' ≤ c ∧ c ≤ 'f' then some (c.toNat - 87)
  else if 'A' ≤ c ∧ c ≤ 'F' then some (c.toNat - 55)
  else none

/-- Single-character JSON string escapes. -/
def escChar : Char → Option Char
  | '"' => some '"'
  | '\\' => some '\\'
  | '/' => some '/'
  | 'b' => some (Char.ofNat 8)
  | 'f' => some (Char.ofNat 12)
  | 'n' => some '\n'
  | 'r' => some '\r'
  | 't' => some '\t'
  | _ => none

/-- Parse the body of a JSON string literal (the opening quote already
consumed), returning the decoded characters and the remaining input. -/
def parseStringBody : List Char → Option (List Char × List Char)
  | [] => none
  | '"' :: rest => some ([], rest)
  | '\\' :: 'u' :: a :: b :: c :: d :: rest =>
    match hexVal a, hexVal b, hexVal c, hexVal d with
    | some ha, some hb, some hc, some hd =>
      (parseStringBody rest).map fun (cs, rem) =>
        (Char.ofNat (((ha * 16 + hb) * 16 + hc) * 16 + hd) :: cs, rem)
    | _, _, _, _ => none
  | '\\' :: e :: rest =>
    match escChar e with
    | some c => (parseStringBody rest).map fun (cs, rem) => (c :: cs, rem)
    | none => none
  | c :: rest => (parseStringBody rest).map fun (cs, rem) => (c :: cs, rem)

/-- Leading decimal digits of the input. -/
def takeDigits : List Char → List Char × List Char
  | [] => ([], [])
  | c :: cs =>
    if c.isDigit then
      let (ds, rest) := takeDigits cs
      (c :: ds, rest)
    else ([], c :: cs)

/-- Numeric value of a digit string. -/
def digitsToNat (acc : Nat) : List Char → Nat
  | [] => acc
  | c :: cs => digitsToNat (acc * 10 + (c.toNat - 48)) cs

/-- Parse a JSON number literal (grammar `-?(0|[1-9][0-9]*)(.[0-9]+)?([eE][+-]?[0-9]+)?`). -/
def parseNumber (input : List Char) : Option (Json × List Char) :=
  let (neg, cs1) :=
    match input with
    | '-' :: r => (true, r)
    | _ => (false, input)
  let (intDs, cs2) := takeDigits cs1
  if intDs.isEmpty then none
  else if 1 < intDs.length ∧ intDs.head? = some '0' then none
  else
    let (fracDs?, cs3) :=
      match cs2 with
      | '.' :: r =>
        let (fs, r2) := takeDigits r
        (some fs, r2)
      | _ => (none, cs2)
    match fracDs? with
    | some [] => none
    | _ =>
      let fracDs := fracDs?.getD []
      let parseExp : Option (Int × List Char) :=
        match cs3 with
        | 'e' :: r | 'E' :: r =>
          let (esign, r1) :=
            match r with
            | '+' :: r2 => (1, r2)
            | '-' :: r2 => (-1, r2)
            | _ => ((1 : Int), r)
          let (eds, r3) := takeDigits r1
          if eds.isEmpty then none else some (esign * Int.ofNat (digitsToNat 0 eds), r3)
        | _ => some (0, cs3)
      match parseExp with
      | none => none
      | some (e, rest) =>
        let mag : Int := Int.ofNat (digitsToNat (digitsToNat 0 intDs) fracDs)
        some (.num (if neg then -mag else mag) (e - Int.ofNat fracDs.length), rest)

mutual

/-- Parse one JSON value, returning it with the unconsumed remainder.
Fuel bounds the nesting; `jsonParse` supplies enough for any input. -/
def parseValue : Nat → List Char → Option (Json × List Char)
  | 0, _ => none
  | fuel + 1, cs =>
    match skipWs cs with
    | 'n' :: 'u' :: 'l' :: 'l' :: rest => some (.null, rest)
    | 't' :: 'r' :: 'u' :: 'e' :: rest => some (.bool true, rest)
    | 'f' :: 'a' :: 'l' :: 's' :: 'e' :: rest => some (.bool false, rest)
    | '"' :: rest =>
      (parseStringBody rest).map fun (cs, rem) => (.str (String.mk cs), rem)
    | '[' :: rest =>
      (match skipWs rest with
       | ']' :: rem => some (.arr [], rem)
       | other => (parseElems fuel other).map fun (xs, rem) => (.arr xs, rem))
    | '{' :: rest =>
      (match skipWs rest with
       | '}' :: rem => some (.obj [], rem)
       | other => (parseMembers fuel other).map fun (fs, rem) => (.obj fs, rem))
    | other => parseNumber other

/-- Parse the (non-empty) element list of a JSON array, up to and
including the closing bracket. -/
def parseElems : Nat → List Char → Option (List Json × List Char)
  | 0, _ => none
  | fuel + 1, cs =>
    match parseValue fuel cs with
    | none => none
    | some (j, rest) =>
      match skipWs rest with
      | ',' :: rest2 => (parseElems fuel rest2).map fun (xs, rem) => (j :: xs, rem)
      | ']' :: rest2 => some ([j], rest2)
      | _ => none

/-- Parse the (non-empty) member list of a JSON object, up to and
including the closing brace. -/
def parseMembers : Nat → List Char → Option (List (String × Json) × List Char)
  | 0, _ => none
  | fuel + 1, cs =>
    match skipWs cs with
    | '"' :: rest =>
      (match parseStringBody rest with
       | none => none
       | some (kcs, rest2) =>
         match skipWs rest2 with
         | ':' :: rest3 =>
           (match parseValue fuel rest3 with
            | none => none
            | some (v, rest4) =>
              match skipWs rest4 with
              | ',' :: rest5 =>
                (parseMembers fuel rest5).map fun (fs, rem) =>
                  ((String.mk kcs, v) :: fs, rem)
              | '}' :: rest5 => some ([(String.mk kcs, v)], rest5)
              | _ => none)
         | _ => none)
    | _ => none

end

/-- Model of ECMAScript `JSON.parse`: `none` models a thrown
`SyntaxError`.  The whole input (up to trailing whitespace) must be
consumed. -/
def jsonParse (s : String) : Option Json :=
  match parseValue (s.length + 1) s.data with
  | some (j, rest) => if skipWs rest = [] then some j else none
  | none => none

/-- The fixed `jsonStringFields` list of `parseJsonFields`: field names
the API returns as JSON-encoded strings, in both spellings. -/
def jsonStringFields : List String :=
  ["outcomes", "outcome_prices", "outcomePrices", "clob_token_ids", "clobTokenIds",
   "uma_resolution_statuses", "umaResolutionStatuses"]

/-- `value.startsWith('[')`: the string's first character is `[`. -/
def startsWithBracket (s : String) : Bool :=
  match s.data with
  | '[' :: _ => true
  | _ => false

mutual

/-- `PolymarketGammaClient.parseJsonFields`: primitives pass through,
arrays map recursively, objects are rebuilt entry by entry. -/
def parseJsonFields : Json → Json
  | .arr xs => .arr (parseJsonFieldsList xs)
  | .obj fs => .obj (parseJsonFieldsObj fs)
  | v => v

/-- The `data.map((item) => this.parseJsonFields(item))` branch. -/
def parseJsonFieldsList : List Json → List Json
  | [] => []
  | x :: xs => parseJsonFields x :: parseJsonFieldsList xs

/-- The `Object.entries` loop: a target key holding a `[`-headed string
is replaced by its parse (kept on parse failure); nested objects and
arrays are recursed into; everything else passes through. -/
def parseJsonFieldsObj : List (String × Json) → List (String × Json)
  | [] => []
  | (k, .str s) :: rest =>
    (if jsonStringFields.contains k && startsWithBracket s then
       (k, (jsonParse s).getD (.str s))
     else (k, .str s)) :: parseJsonFieldsObj rest
  | (k, .arr xs) :: rest => (k, .arr (parseJsonFieldsList xs)) :: parseJsonFieldsObj rest
  | (k, .obj gs) :: rest => (k, .obj (parseJsonFieldsObj gs)) :: parseJsonFieldsObj rest
  | (k, v) :: rest => (k, v) :: parseJsonFieldsObj rest

end

/-- `JSON.parse` as the JS runtime sees it: a thrown `SyntaxError`
is an `Except.error`. -/
def jsonParseE (s : String) : Except String Json :=
  match jsonParse s with
  | some j => .ok j
  | none => .error "SyntaxError: Unexpected token in JSON"

mutual

/-- `parseJsonFields` with JS exception semantics made explicit: the
only throwing operation, `JSON.parse`, sits inside a `try`/`catch`
that falls back to the original string. -/
def parseJsonFieldsE : Json → Except String Json
  | .arr xs =>
    (match parseJsonFieldsListE xs with
     | .ok ys => .ok (.arr ys)
     | .error e => .error e)
  | .obj fs =>
    (match parseJsonFieldsObjE fs with
     | .ok gs => .ok (.obj gs)
     | .error e => .error e)
  | v => .ok v

/-- Exception-explicit version of `parseJsonFieldsList`. -/
def parseJsonFieldsListE : List Json → Except String (List Json)
  | [] => .ok []
  | x :: xs =>
    (match parseJsonFieldsE x, parseJsonFieldsListE xs with
     | .ok y, .ok ys => .ok (y :: ys)
     | .error e, _ => .error e
     | _, .error e => .error e)

/-- Exception-explicit version of `parseJsonFieldsObj`: the `catch`
branch turns a parse error back into the original string. -/
def parseJsonFieldsObjE : List (String × Json) → Except String (List (String × Json))
  | [] => .ok []
  | (k, .str s) :: rest =>
    let v : Json :=
      if jsonStringFields.contains k && startsWithBracket s then
        match jsonParseE s with
        | .ok j => j
        | .error _ => .str s
      else .str s
    (match parseJsonFieldsObjE rest with
     | .ok gs => .ok ((k, v) :: gs)
     | .error e => .error e)
  | (k, .arr xs) :: rest =>
    (match parseJsonFieldsListE xs, parseJsonFieldsObjE rest with
     | .ok ys, .ok gs => .ok ((k, .arr ys) :: gs)
     | .error e, _ => .error e
     | _, .error e => .error e)
  | (k, .obj fs) :: rest =>
    (match parseJsonFieldsObjE fs, parseJsonFieldsObjE rest with
     | .ok hs, .ok gs => .ok ((k, .obj hs) :: gs)
     | .error e, _ => .error e
     | _, .error e => .error e)
  | (k, v) :: rest =>
    (match parseJsonFieldsObjE rest with
     | .ok gs => .ok ((k, v) :: gs)
     | .error e => .error e)

end

mutual

/-- Every target field anywhere in the value whose `[`-headed string
parses successfully parses to a `parseJsonFields` fixed point. -/
def goodJson : Json → Bool
  | .arr xs => goodList xs
  | .obj fs => goodObj fs
  | _ => true

/-- `goodJson` on array elements. -/
def goodList : List Json → Bool
  | [] => true
  | x :: xs => goodJson x && goodList xs

/-- `goodJson` on object members. -/
def goodObj : List (String × Json) → Bool
  | [] => true
  | (k, .str s) :: rest =>
    (if jsonStringFields.contains k && startsWithBracket s then
       match jsonParse s with
       | some j => jsonBeq (parseJsonFields j) j
       | none => true
     else true) && goodObj rest
  | (_, .arr xs) :: rest => goodList xs && goodObj rest
  | (_, .obj gs) :: rest => goodObj gs && goodObj rest
  | (_, _) :: rest => goodObj rest

end

/-- A value in the parameter mapping of `request`.  Scalars and array
items carry their `String(·)` rendering, which is what
`url.searchParams.append` receives. -/
inductive ParamValue where
  | undef : ParamValue
  | null : ParamValue
  | scalar (s : String) : ParamValue
  | array (items : List String) : ParamValue
deriving DecidableEq

/-- Negation of the guard `value !== undefined && value !== null`. -/
def isAbsent : ParamValue → Bool
  | .undef => true
  | .null => true
  | _ => false

/-- The query-parameter loop of `request`: absent values are skipped,
arrays append one entry per item, scalars append one entry. -/
def buildQuery : List (String × ParamValue) → List (String × String)
  | [] => []
  | (_, .undef) :: rest => buildQuery rest
  | (_, .null) :: rest => buildQuery rest
  | (k, .array xs) :: rest => xs.map (fun x => (k, x)) ++ buildQuery rest
  | (k, .scalar s) :: rest => (k, s) :: buildQuery rest

/-- The part of the transport response the client inspects. -/
structure HttpResponse where
  ok : Bool
  status : Nat
  statusText : String
  body : String
deriving DecidableEq

/-- The message of the error thrown on a non-ok response:
`` `HTTP ${response.status}: ${response.statusText}` ``. -/
def httpErrorMsg (r : HttpResponse) : String :=
  "HTTP " ++ toString r.status ++ ": " ++ r.statusText

/-- Outcome classification of `request` (GET) after the transport
returned: non-ok throws, otherwise the body is decoded and normalized. -/
def handleResponse (r : HttpResponse) : Except String Json :=
  if r.ok then
    match jsonParse r.body with
    | some j => .ok (parseJsonFields j)
    | none => .error "SyntaxError: Unexpected token in JSON"
  else .error (httpErrorMsg r)

/-- Outcome classification of `post`: identical error handling, but the
decoded body is returned as-is, with no normalization pass. -/
def handlePostResponse (r : HttpResponse) : Except String Json :=
  if r.ok then
    match jsonParse r.body with
    | some j => .ok j
    | none => .error "SyntaxError: Unexpected token in JSON"
  else .error (httpErrorMsg r)

/-- First-match field lookup, modelling JS property access. -/
def lookupField : List (String × Json) → String → Option Json
  | [], _ => none
  | (k2, v) :: rest, k => if k2 = k then some v else lookupField rest k

/-- JS property access `obj.k` on a decoded value. -/
def getField (j : Json) (k : String) : Option Json :=
  match j with
  | .obj fs => lookupField fs k
  | _ => none

/-- `grokEventSummary`: POST, then return `response.summary`. -/
def grokEventSummaryResult (r : HttpResponse) : Except String (Option Json) :=
  (handlePostResponse r).map (fun j => getField j "summary")

/-- `grokElectionMarketExplanation`: POST, then return
`response.explanation`. -/
def grokElectionMarketExplanationResult (r : HttpResponse) : Except String (Option Json) :=
  (handlePostResponse r).map (fun j => getField j "explanation")

/-- `idOrSlug.includes('-')`. -/
def includesHyphen (s : String) : Bool := s.data.contains '-'

/-- Endpoint chosen by `getMarket`. -/
def getMarketEndpoint (idOrSlug : String) : String :=
  if includesHyphen idOrSlug then "/markets/slug/" ++ idOrSlug else "/markets/" ++ idOrSlug

/-- Endpoint chosen by `getEvent`. -/
def getEventEndpoint (idOrSlug : String) : String :=
  if includesHyphen idOrSlug then "/events/slug/" ++ idOrSlug else "/events/" ++ idOrSlug

/-- Endpoint chosen by `getTag` — no hyphen dispatch in the source. -/
def getTagEndpoint (idOrSlug : String) : String :=
  "/tags/" ++ idOrSlug

/-- Endpoint chosen by `getRelatedTags`. -/
def getRelatedTagsEndpoint (idOrSlug : String) : String :=
  if includesHyphen idOrSlug then "/tags/slug/" ++ idOrSlug ++ "/related-tags"
  else "/tags/" ++ idOrSlug ++ "/related-tags"

/-- Endpoint chosen by `getRelatedTagsTags`. -/
def getRelatedTagsTagsEndpoint (idOrSlug : String) : String :=
  if includesHyphen idOrSlug then "/tags/slug/" ++ idOrSlug ++ "/related-tags/tags"
  else "/tags/" ++ idOrSlug ++ "/related-tags/tags"

theorem skipWs_bracket (cs : List Char) : skipWs ('[' :: cs) = '[' :: cs := by
  simp [skipWs, isJsonWs]

/-- A successful `parseValue` on input headed by `[` yields an array. -/
theorem parseValue_bracket (fuel : Nat) (cs rem : List Char) (j : Json)
    (h : parseValue (fuel + 1) ('[' :: cs) = some (j, rem)) :
    ∃ xs, j = Json.arr xs := by
  simp only [parseValue, skipWs_bracket] at h
  split at h
  · simp only [Option.some.injEq, Prod.mk.injEq] at h
    exact ⟨[], h.1.symm⟩
  · rw [Option.map_eq_some'] at h
    obtain ⟨⟨xs, rem2⟩, _, hf⟩ := h
    simp only [Prod.mk.injEq] at hf
    exact ⟨xs, hf.1.symm⟩

/-- A string whose first character is `[` can only parse to an array. -/
theorem jsonParse_bracket (s : String) (j : Json)
    (hb : startsWithBracket s = true) (h : jsonParse s = some j) :
    ∃ xs, j = Json.arr xs := by
  unfold startsWithBracket at hb
  unfold jsonParse at h
  split at hb
  · rename_i cs heq
    rw [heq] at h
    cases hpv : parseValue (s.length + 1) ('[' :: cs) with
    | none => rw [hpv] at h; simp at h
    | some pr =>
      obtain ⟨j2, rest⟩ := pr
      rw [hpv] at h
      dsimp only at h
      by_cases hr : skipWs rest = []
      · rw [if_pos hr] at h
        injection h with hj
        subst hj
        exact parseValue_bracket s.length cs rest j2 hpv
      · simp [hr] at h
  · exact absurd hb (by simp)

theorem pjfo_cons_str_target (k s : String) (fs : List (String × Json))
    (hck : jsonStringFields.contains k = true) (hbb : startsWithBracket s = true) :
    parseJsonFieldsObj ((k, Json.str s) :: fs) =
      (k, (jsonParse s).getD (Json.str s)) :: parseJsonFieldsObj fs := by
  simp only [parseJsonFieldsObj, hck, hbb, Bool.and_self, if_true]

theorem pjfo_cons_str_nontarget (k s : String) (fs : List (String × Json))
    (hc : (jsonStringFields.contains k && startsWithBracket s) = false) :
    parseJsonFieldsObj ((k, Json.str s) :: fs) =
      (k, Json.str s) :: parseJsonFieldsObj fs := by
  simp only [parseJsonFieldsObj, hc, Bool.false_eq_true, if_false]

theorem goodObj_cons_str_target (k s : String) (fs : List (String × Json))
    (hck : jsonStringFields.contains k = true) (hbb : startsWithBracket s = true) :
    goodObj ((k, Json.str s) :: fs) =
      ((match jsonParse s with
        | some j => jsonBeq (parseJsonFields j) j
        | none => true) && goodObj fs) := by
  simp only [goodObj, hck, hbb, Bool.and_self, if_true]

theorem goodObj_cons_str_nontarget (k s : String) (fs : List (String × Json))
    (hc : (jsonStringFields.contains k && startsWithBracket s) = false) :
    goodObj ((k, Json.str s) :: fs) = goodObj fs := by
  simp only [goodObj, hc, Bool.false_eq_true, if_false, Bool.true_and]

/-- Element-wise idempotence lifts to `parseJsonFieldsList`. -/
theorem parseJsonFieldsList_idem (xs : List Json)
    (ih : ∀ x ∈ xs, goodJson x = true →
      parseJsonFields (parseJsonFields x) = parseJsonFields x)
    (hg : goodList xs = true) :
    parseJsonFieldsList (parseJsonFieldsList xs) = parseJsonFieldsList xs := by
  induction xs with
  | nil => rfl
  | cons x xs ihl =>
    simp only [goodList, Bool.and_eq_true] at hg
    simp only [parseJsonFieldsList]
    rw [ih x (by simp) hg.1, ihl (fun z hz hgz => ih z (by simp [hz]) hgz) hg.2]

/-- Member-wise idempotence lifts to `parseJsonFieldsObj`, provided
each target field's parsed content is already a fixed point. -/
theorem parseJsonFieldsObj_idem (fs : List (String × Json))
    (ih : ∀ p ∈ fs, goodJson p.2 = true →
      parseJsonFields (parseJsonFields p.2) = parseJsonFields p.2)
    (hg : goodObj fs = true) :
    parseJsonFieldsObj (parseJsonFieldsObj fs) = parseJsonFieldsObj fs := by
  induction fs with
  | nil => rfl
  | cons p fs ihl =>
    obtain ⟨k, v⟩ := p
    have ihtail := ihl (fun z hz hgz => ih z (by simp [hz]) hgz)
    cases v with
    | str s =>
      by_cases hc : (jsonStringFields.contains k && startsWithBracket s) = true
      · have hck : jsonStringFields.contains k = true := by
          revert hc; cases jsonStringFields.contains k <;> simp
        have hbb : startsWithBracket s = true := by
          revert hc; cases startsWithBracket s <;> simp
        rw [goodObj_cons_str_target k s fs hck hbb, Bool.and_eq_true] at hg
        cases hp : jsonParse s with
        | some jv =>
          rw [hp] at hg
          have hfix : parseJsonFields jv = jv := (jsonBeq_iff _ _).mp hg.1
          obtain ⟨ys, rfl⟩ := jsonParse_bracket s jv hbb hp
          have hys : parseJsonFieldsList ys = ys := by
            simpa [parseJsonFields] using hfix
          rw [pjfo_cons_str_target k s fs hck hbb, hp]
          simp only [Option.getD_some]
          simp only [parseJsonFieldsObj]
          rw [hys, ihtail hg.2]
        | none =>
          rw [hp] at hg
          rw [pjfo_cons_str_target k s fs hck hbb, hp]
          simp only [Option.getD_none]
          rw [pjfo_cons_str_target k s (parseJsonFieldsObj fs) hck hbb, hp]
          simp only [Option.getD_none]
          rw [ihtail hg.2]
      · have hcf : (jsonStringFields.contains k && startsWithBracket s) = false := by
          revert hc; cases (jsonStringFields.contains k && startsWithBracket s) <;> simp
        rw [goodObj_cons_str_nontarget k s fs hcf] at hg
        rw [pjfo_cons_str_nontarget k s fs hcf,
          pjfo_cons_str_nontarget k s (parseJsonFieldsObj fs) hcf, ihtail hg]
    | arr xs =>
      simp only [goodObj, Bool.and_eq_true] at hg
      have h1 := ih (k, Json.arr xs) (by simp) (by simp only [goodJson]; exact hg.1)
      have h2 : parseJsonFieldsList (parseJsonFieldsList xs) = parseJsonFieldsList xs := by
        simpa only [parseJsonFields, Json.arr.injEq] using h1
      simp only [parseJsonFieldsObj]
      rw [h2, ihtail hg.2]
    | obj gs =>
      simp only [goodObj, Bool.and_eq_true] at hg
      have h1 := ih (k, Json.obj gs) (by simp) (by simp only [goodJson]; exact hg.1)
      have h2 : parseJsonFieldsObj (parseJsonFieldsObj gs) = parseJsonFieldsObj gs := by
        simpa only [parseJsonFields, Json.obj.injEq] using h1
      simp only [parseJsonFieldsObj]
      rw [h2, ihtail hg.2]
    | null =>
      simp only [goodObj] at hg
      simp only [parseJsonFieldsObj]
      rw [ihtail hg]
    | bool b =>
      simp only [goodObj] at hg
      simp only [parseJsonFieldsObj]
      rw [ihtail hg]
    | num m e =>
      simp only [goodObj] at hg
      simp only [parseJsonFieldsObj]
      rw [ihtail hg]

/-- The normalizer is idempotent on values whose target fields, when
they parse, parse to already-normalized values. -/
theorem parseJsonFields_idem : ∀ j : Json, goodJson j = true →
    parseJsonFields (parseJsonFields j) = parseJsonFields j := by
  intro j
  induction j using jsonInd with
  | hnull => intro _; rfl
  | hbool b => intro _; rfl
  | hnum m e => intro _; rfl
  | hstr s => intro _; rfl
  | harr xs ih =>
    intro hg
    have hgl : goodList xs = true := by simpa [goodJson] using hg
    simp only [parseJsonFields]
    rw [parseJsonFieldsList_idem xs ih hgl]
  | hobj fs ih =>
    intro hg
    have hgo : goodObj fs = true := by simpa [goodJson] using hg
    simp only [parseJsonFields]
    rw [parseJsonFieldsObj_idem fs ih hgo]

/-- `parseJsonFieldsListE` never throws and agrees with the pure version. -/
theorem parseJsonFieldsListE_eq (xs : List Json)
    (ih : ∀ x ∈ xs, parseJsonFieldsE x = .ok (parseJsonFields x)) :
    parseJsonFieldsListE xs = .ok (parseJsonFieldsList xs) := by
  induction xs with
  | nil => rfl
  | cons x xs ihl =>
    simp only [parseJsonFieldsListE, parseJsonFieldsList]
    rw [ih x (by simp), ihl (fun z hz => ih z (by simp [hz]))]

/-- `parseJsonFieldsObjE` never throws and agrees with the pure version. -/
theorem parseJsonFieldsObjE_eq (fs : List (String × Json))
    (ih : ∀ p ∈ fs, parseJsonFieldsE p.2 = .ok (parseJsonFields p.2)) :
    parseJsonFieldsObjE fs = .ok (parseJsonFieldsObj fs) := by
  induction fs with
  | nil => rfl
  | cons p fs ihl =>
    obtain ⟨k, v⟩ := p
    have ihtail := ihl (fun z hz => ih z (by simp [hz]))
    cases v with
    | str s =>
      simp only [parseJsonFieldsObjE, parseJsonFieldsObj, jsonParseE]
      rw [ihtail]
      cases hp : jsonParse s with
      | some jv =>
        simp only [hp]
        split <;> rfl
      | none => simp [hp]
    | arr xs =>
      have h1 := ih (k, Json.arr xs) (by simp)
      simp only [parseJsonFieldsE, parseJsonFields] at h1
      cases hx : parseJsonFieldsListE xs with
      | error e => rw [hx] at h1; dsimp only at h1; exact absurd h1 (by simp)
      | ok ys =>
        rw [hx] at h1
        dsimp only at h1
        injection h1 with h1
        injection h1 with h1
        simp only [parseJsonFieldsObjE, parseJsonFieldsObj]
        rw [hx, ihtail, h1]
    | obj gs =>
      have h1 := ih (k, Json.obj gs) (by simp)
      simp only [parseJsonFieldsE, parseJsonFields] at h1
      cases hx : parseJsonFieldsObjE gs with
      | error e => rw [hx] at h1; dsimp only at h1; exact absurd h1 (by simp)
      | ok hs =>
        rw [hx] at h1
        dsimp only at h1
        injection h1 with h1
        injection h1 with h1
        simp only [parseJsonFieldsObjE, parseJsonFieldsObj]
        rw [hx, ihtail, h1]
    | null =>
      simp only [parseJsonFieldsObjE, parseJsonFieldsObj]
      rw [ihtail]
    | bool b =>
      simp only [parseJsonFieldsObjE, parseJsonFieldsObj]
      rw [ihtail]
    | num m e =>
      simp only [parseJsonFieldsObjE, parseJsonFieldsObj]
      rw [ihtail]

/-- The normalizer never throws: the only throwing operation,
`JSON.parse`, is wrapped in a `try`/`catch` that keeps the original
string, so the exception-explicit model always returns `ok` and agrees
with the pure function. -/
theorem parseJsonFieldsE_eq : ∀ j : Json,
    parseJsonFieldsE j = .ok (parseJsonFields j) := by
  intro j
  induction j using jsonInd with
  | hnull => rfl
  | hbool b => rfl
  | hnum m e => rfl
  | hstr s => rfl
  | harr xs ih =>
    simp only [parseJsonFieldsE, parseJsonFields]
    rw [parseJsonFieldsListE_eq xs ih]
  | hobj fs ih =>
    simp only [parseJsonFieldsE, parseJsonFields]
    rw [parseJsonFieldsObjE_eq fs ih]

/-- The normalizer processes object members independently. -/
theorem parseJsonFieldsObj_append (a b : List (String × Json)) :
    parseJsonFieldsObj (a ++ b) = parseJsonFieldsObj a ++ parseJsonFieldsObj b := by
  induction a with
  | nil => rfl
  | cons p a ih =>
    obtain ⟨k, v⟩ := p
    cases v <;> simp [parseJsonFieldsObj, ih]

/-- The query builder processes parameters independently. -/
theorem buildQuery_append (a b : List (String × ParamValue)) :
    buildQuery (a ++ b) = buildQuery a ++ buildQuery b := by
  induction a with
  | nil => rfl
  | cons p a ih =>
    obtain ⟨k, v⟩ := p
    cases v <;> simp [buildQuery, ih]

/-- A key all of whose values are absent never contributes an entry. -/
theorem buildQuery_absent_not_mem (ps : List (String × ParamValue)) (k : String)
    (h : ∀ v, (k, v) ∈ ps → isAbsent v = true) (s : String) :
    (k, s) ∉ buildQuery ps := by
  induction ps with
  | nil => simp [buildQuery]
  | cons p ps ih =>
    obtain ⟨k2, v2⟩ := p
    have htail := ih (fun v hv => h v (by simp [hv]))
    cases v2 with
    | undef => simpa [buildQuery] using htail
    | null => simpa [buildQuery] using htail
    | scalar s2 =>
      simp only [buildQuery, List.mem_cons]
      rintro (heq | hmem)
      · rw [Prod.mk.injEq] at heq
        obtain ⟨hk, -⟩ := heq
        subst hk
        exact absurd (h (ParamValue.scalar s2) (by simp)) (by simp [isAbsent])
      · exact htail hmem
    | array xs =>
      simp only [buildQuery, List.mem_append, List.mem_map]
      rintro (⟨x, -, heq⟩ | hmem)
      · rw [Prod.mk.injEq] at heq
        obtain ⟨hk, -⟩ := heq
        subst hk
        exact absurd (h (ParamValue.array xs) (by simp)) (by simp [isAbsent])
      · exact htail hmem

/-- C1 (counterexample): the Field Normalizer is not idempotent for all
JSON values.  For `{"outcomes": "[{\"outcomes\":\"[0]\"}]"}` the first
pass inserts the parsed array without normalizing it, and the second
pass then normalizes the nested target field, changing the value. -/
theorem C1_counterexample :
    parseJsonFields (parseJsonFields
        (Json.obj [("outcomes", Json.str "[\x7b\"outcomes\":\"[0]\"\x7d]")])) ≠
      parseJsonFields (Json.obj [("outcomes", Json.str "[\x7b\"outcomes\":\"[0]\"\x7d]")]) := by
  decide

/-- C1 (amended): `parseJsonFields` is idempotent on every value in
which each target field's successfully parsed `[`-headed string content
is already a `parseJsonFields` fixed point (`goodJson`); without that
restriction idempotence fails, see the counterexample. -/
theorem C1_amended_idempotent (j : Json) (hg : goodJson j = true) :
    parseJsonFields (parseJsonFields j) = parseJsonFields j :=
  parseJsonFields_idem j hg

/-- C1 witness: the amended idempotence at a concrete market-like value. -/
theorem C1_amended_idempotent_witness :
    goodJson (Json.obj [("outcomes", Json.str "[\"Yes\",\"No\"]"),
        ("question", Json.str "Will it?")]) = true ∧
      parseJsonFields (parseJsonFields (Json.obj [("outcomes", Json.str "[\"Yes\",\"No\"]"),
          ("question", Json.str "Will it?")])) =
        parseJsonFields (Json.obj [("outcomes", Json.str "[\"Yes\",\"No\"]"),
          ("question", Json.str "Will it?")]) :=
  ⟨by decide, C1_amended_idempotent _ (by decide)⟩

/-- C2: a target field (exact key match) holding a string whose first
character is `[` and which parses as JSON is replaced by the parsed
result; the rest of the object is processed entry-wise as usual. -/
theorem C2_target_field_parsed (k s : String) (j : Json)
    (fs1 fs2 : List (String × Json))
    (hk : jsonStringFields.contains k = true) (hb : startsWithBracket s = true)
    (hp : jsonParse s = some j) :
    parseJsonFields (Json.obj (fs1 ++ (k, Json.str s) :: fs2)) =
      Json.obj (parseJsonFieldsObj fs1 ++ (k, j) :: parseJsonFieldsObj fs2) := by
  simp only [parseJsonFields, parseJsonFieldsObj_append]
  rw [pjfo_cons_str_target k s fs2 hk hb, hp]
  rfl

/-- C2 witness: a target field in snake_case or camelCase spelling
holding `'["Yes","No"]'` becomes the two-element array. -/
theorem C2_target_field_parsed_witness :
    parseJsonFields (Json.obj [("outcomes", Json.str "[\"Yes\",\"No\"]")]) =
        Json.obj [("outcomes", Json.arr [Json.str "Yes", Json.str "No"])] ∧
      parseJsonFields (Json.obj [("outcomePrices", Json.str "[\"Yes\",\"No\"]")]) =
        Json.obj [("outcomePrices", Json.arr [Json.str "Yes", Json.str "No"])] ∧
      parseJsonFields (Json.obj [("outcome_prices", Json.str "[\"Yes\",\"No\"]")]) =
        Json.obj [("outcome_prices", Json.arr [Json.str "Yes", Json.str "No"])] :=
  ⟨C2_target_field_parsed "outcomes" _ _ [] [] (by decide) (by decide) (by decide),
   C2_target_field_parsed "outcomePrices" _ _ [] [] (by decide) (by decide) (by decide),
   C2_target_field_parsed "outcome_prices" _ _ [] [] (by decide) (by decide) (by decide)⟩

/-- C3: a target field holding a `[`-headed string that fails to parse
keeps the original string for that field, and the normalizer does not
raise (the exception-explicit model still returns `ok`). -/
theorem C3_parse_failure_keeps_string (k s : String) (fs1 fs2 : List (String × Json))
    (hk : jsonStringFields.contains k = true) (hb : startsWithBracket s = true)
    (hp : jsonParse s = none) :
    parseJsonFields (Json.obj (fs1 ++ (k, Json.str s) :: fs2)) =
        Json.obj (parseJsonFieldsObj fs1 ++ (k, Json.str s) :: parseJsonFieldsObj fs2) ∧
      parseJsonFieldsE (Json.obj (fs1 ++ (k, Json.str s) :: fs2)) =
        .ok (Json.obj (parseJsonFieldsObj fs1 ++ (k, Json.str s) :: parseJsonFieldsObj fs2)) := by
  have h1 : parseJsonFields (Json.obj (fs1 ++ (k, Json.str s) :: fs2)) =
      Json.obj (parseJsonFieldsObj fs1 ++ (k, Json.str s) :: parseJsonFieldsObj fs2) := by
    simp only [parseJsonFields, parseJsonFieldsObj_append]
    rw [pjfo_cons_str_target k s fs2 hk hb, hp]
    rfl
  exact ⟨h1, by rw [parseJsonFieldsE_eq, h1]⟩

/-- C3 witness: the invalid JSON string `"[1,2"` is kept verbatim. -/
theorem C3_parse_failure_keeps_string_witness :
    parseJsonFields (Json.obj [("outcomes", Json.str "[1,2")]) =
        Json.obj [("outcomes", Json.str "[1,2")] ∧
      parseJsonFieldsE (Json.obj [("outcomes", Json.str "[1,2")]) =
        .ok (Json.obj [("outcomes", Json.str "[1,2")]) :=
  C3_parse_failure_keeps_string "outcomes" "[1,2" [] [] (by decide) (by decide) (by decide)

/-- C4: the Field Normalizer is a pure total function that never
throws: the exception-explicit model returns `ok` on every decoded JSON
value and agrees with the pure `parseJsonFields`. -/
theorem C4_total_never_throws : ∀ j : Json,
    parseJsonFieldsE j = Except.ok (parseJsonFields j) :=
  parseJsonFieldsE_eq

/-- C5: a parameter whose every value under a key is absent
(`undefined`/`null`) contributes no query entry at all under that key,
not even an empty-string entry. -/
theorem C5_absent_not_in_query (ps : List (String × ParamValue)) (k : String)
    (h : ∀ v, (k, v) ∈ ps → isAbsent v = true) (s : String) :
    (k, s) ∉ buildQuery ps :=
  buildQuery_absent_not_mem ps k h s

/-- C5 witness: an unset `limit` never appears, not even as `limit=`. -/
theorem C5_absent_not_in_query_witness :
    ("limit", "") ∉
      buildQuery [("limit", ParamValue.undef), ("offset", ParamValue.scalar "10")] :=
  C5_absent_not_in_query _ "limit"
    (by intro v hv; simp at hv; subst hv; rfl) ""

/-- C6: an array-valued parameter appends one entry per element under
the same key, in the array's order; a non-absent scalar appends exactly
one entry with its string form. -/
theorem C6_sequence_and_scalar_entries (ps1 ps2 : List (String × ParamValue))
    (k : String) (xs : List String) (s : String) :
    buildQuery (ps1 ++ (k, ParamValue.array xs) :: ps2) =
        buildQuery ps1 ++ xs.map (fun x => (k, x)) ++ buildQuery ps2 ∧
      buildQuery (ps1 ++ (k, ParamValue.scalar s) :: ps2) =
        buildQuery ps1 ++ (k, s) :: buildQuery ps2 := by
  constructor
  · rw [buildQuery_append]
    simp [buildQuery, List.append_assoc]
  · rw [buildQuery_append]
    simp [buildQuery]

/-- C7 (counterexample): `getTag` receives an id-or-slug but does not
apply the hyphen dispatch: a hyphenated identifier is not routed to the
`/tags/slug/...` form. -/
theorem C7_counterexample :
    includesHyphen "us-elections" = true ∧
      getTagEndpoint "us-elections" ≠ "/tags/slug/us-elections" ∧
      getTagEndpoint "us-elections" = "/tags/us-elections" := by
  refine ⟨by decide, by decide, by decide⟩

/-- C7 (amended): the hyphen dispatch rule holds for `getMarket`,
`getEvent`, `getRelatedTags` and `getRelatedTagsTags`, but `getTag`
always routes to `/tags/<id>` regardless of hyphens. -/
theorem C7_amended_dispatch (s : String) :
    (includesHyphen s = true →
      getMarketEndpoint s = "/markets/slug/" ++ s ∧
        getEventEndpoint s = "/events/slug/" ++ s ∧
        getRelatedTagsEndpoint s = "/tags/slug/" ++ s ++ "/related-tags" ∧
        getRelatedTagsTagsEndpoint s = "/tags/slug/" ++ s ++ "/related-tags/tags") ∧
      (includesHyphen s = false →
        getMarketEndpoint s = "/markets/" ++ s ∧
          getEventEndpoint s = "/events/" ++ s ∧
          getRelatedTagsEndpoint s = "/tags/" ++ s ++ "/related-tags" ∧
          getRelatedTagsTagsEndpoint s = "/tags/" ++ s ++ "/related-tags/tags") ∧
      getTagEndpoint s = "/tags/" ++ s := by
  refine ⟨fun h => ?_, fun h => ?_, rfl⟩ <;>
    simp [getMarketEndpoint, getEventEndpoint, getRelatedTagsEndpoint,
      getRelatedTagsTagsEndpoint, getTagEndpoint, h]

/-- C7 witness: dispatch at a hyphenated slug and a plain id. -/
theorem C7_amended_dispatch_witness :
    getMarketEndpoint "us-elections" = "/markets/slug/us-elections" ∧
      getEventEndpoint "123" = "/events/123" ∧
      getTagEndpoint "us-elections" = "/tags/us-elections" := by
  refine ⟨?_, ?_, ?_⟩
  · exact ((C7_amended_dispatch "us-elections").1 (by decide)).1
  · exact ((C7_amended_dispatch "123").2.1 (by decide)).2.1
  · exact (C7_amended_dispatch "us-elections").2.2

/-- C8: a transport response with a non-ok status makes both `request`
(GET) and `post` fail with the message `HTTP <code>: <text>`; the body
is neither decoded nor normalized in that case. -/
theorem C8_http_status_failure (r : HttpResponse) (h : r.ok = false) :
    handleResponse r = .error ("HTTP " ++ toString r.status ++ ": " ++ r.statusText) ∧
      handlePostResponse r = .error ("HTTP " ++ toString r.status ++ ": " ++ r.statusText) := by
  simp [handleResponse, handlePostResponse, httpErrorMsg, h]

/-- C8 witness: 404 / "Not Found" yields exactly `HTTP 404: Not Found`. -/
theorem C8_http_status_failure_witness :
    handleResponse ⟨false, 404, "Not Found", "\x7b\x7d"⟩ = .error "HTTP 404: Not Found" ∧
      handlePostResponse ⟨false, 404, "Not Found", "\x7b\x7d"⟩ = .error "HTTP 404: Not Found" :=
  C8_http_status_failure ⟨false, 404, "Not Found", "\x7b\x7d"⟩ rfl

/-- C10: `post` returns the decoded body as-is and the Grok accessors
read the `summary`/`explanation` field from it, with no normalization
pass — unlike `request` (GET), which normalizes the decoded body. -/
theorem C10_post_returns_unnormalized (r : HttpResponse) (j : Json)
    (hok : r.ok = true) (hp : jsonParse r.body = some j) :
    handlePostResponse r = .ok j ∧
      grokEventSummaryResult r = .ok (getField j "summary") ∧
      grokElectionMarketExplanationResult r = .ok (getField j "explanation") ∧
      handleResponse r = .ok (parseJsonFields j) := by
  have hpost : handlePostResponse r = .ok j := by
    simp [handlePostResponse, hok, hp]
  refine ⟨hpost, ?_, ?_, by simp [handleResponse, hok, hp]⟩ <;>
    simp [grokEventSummaryResult, grokElectionMarketExplanationResult, hpost, Except.map]

/-- C10 witness: a POST response body with a target field keeps the
JSON string, while the GET pipeline on the same body parses it. -/
theorem C10_post_returns_unnormalized_witness :
    handlePostResponse ⟨true, 200, "OK", "\x7b\"summary\":\"hi\",\"outcomes\":\"[1,2]\"\x7d"⟩ =
        .ok (Json.obj [("summary", Json.str "hi"), ("outcomes", Json.str "[1,2]")]) ∧
      handleResponse ⟨true, 200, "OK", "\x7b\"summary\":\"hi\",\"outcomes\":\"[1,2]\"\x7d"⟩ =
        .ok (Json.obj [("summary", Json.str "hi"),
          ("outcomes", Json.arr [Json.num 1 0, Json.num 2 0])]) ∧
      Json.obj [("summary", Json.str "hi"), ("outcomes", Json.str "[1,2]")] ≠
        Json.obj [("summary", Json.str "hi"),
          ("outcomes", Json.arr [Json.num 1 0, Json.num 2 0])] := by
  have h := C10_post_returns_unnormalized
    ⟨true, 200, "OK", "\x7b\"summary\":\"hi\",\"outcomes\":\"[1,2]\"\x7d"⟩
    (Json.obj [("summary", Json.str "hi"), ("outcomes", Json.str "[1,2]")]) rfl (by decide)
  refine ⟨h.1, ?_, by decide⟩
  rw [h.2.2.2]
  exact congrArg Except.ok (by decide)

end PolymarketGamma
